import Mathlib

/-!
Verification of the externally-driven Bayesian-optimization loop exercised by
the notebook `Emukit-Bayesian-optimization-external-objective-evaluation.ipynb`.

The repository ships only the demonstration notebook; the loop engine it
drives (ParameterSpace, LoopState, `get_next_points`, `run_to_completion`,
the acquisition optimizer) is not part of the source tree.  Those components
are therefore modelled from the specification (spec.md §3, §4, §6, §7), and
the notebook's own driving pattern (cell 13) and automatic run (cell 19) are
embedded from the notebook source.  Points and outputs are rationals; a point
is one value per parameter in declared order.
-/

/-- Modelled from the spec (§3 ParameterSpace): a Parameter has a name and a
kind — continuous with `[lo, hi]`, discrete with an explicit value set, or
categorical with an enumerated label set (a categorical value is the index of
a label). -/
inductive Parameter where
  | continuous (name : String) (lo hi : ℚ)
  | discrete (name : String) (values : List ℚ)
  | categorical (name : String) (labels : List String)
deriving DecidableEq

/-- Modelled from the spec (§3): the validity predicate of a single
parameter: membership in `[lo, hi]`, in the value set, or an index of a
label. -/
def Parameter.validValue : Parameter → ℚ → Bool
  | .continuous _ lo hi, v => decide (lo ≤ v) && decide (v ≤ hi)
  | .discrete _ values, v => values.contains v
  | .categorical _ labels, v => (List.range labels.length).any fun i : ℕ => v == mkRat (i : ℤ) 1

/-- A parameter is feasible when at least one valid value exists; every
ParameterSpace the engine accepts is made of feasible parameters. -/
def Parameter.feasible : Parameter → Prop
  | .continuous _ lo hi => lo ≤ hi
  | .discrete _ values => values ≠ []
  | .categorical _ labels => labels ≠ []

/-- Modelled from the spec (§3): a ParameterSpace is an ordered sequence of
Parameter definitions. -/
abbrev ParameterSpace := List Parameter

/-- Modelled from the spec (§3): a point is valid for a space when its
dimensionality equals the number of parameters and every coordinate satisfies
the corresponding parameter's validity predicate, in declared order. -/
def validPoint : ParameterSpace → List ℚ → Bool
  | [], [] => true
  | p :: ps, v :: vs => p.validValue v && validPoint ps vs
  | _, _ => false

/-- Modelled from the spec (§7): the error taxonomy of the core. -/
inductive LoopError where
  | shapeMismatch
  | modelFit
  | protocolViolation
deriving DecidableEq

/-- Modelled from the spec (§3 LoopState): the ordered, append-only record of
all observations, insertion order = evaluation order; `X` are the input
points and `Y` the output values, kept as parallel sequences. -/
structure LoopState where
  X : List (List ℚ)
  Y : List ℚ
deriving DecidableEq

/-- Modelled from the spec (§4.1): `update` appends all given observations;
it fails with `ShapeMismatchError` if an input's dimensionality disagrees
with the ParameterSpace or if input/output counts within the batch disagree,
and on failure nothing is appended. -/
def LoopState.update (space : ParameterSpace) (s : LoopState)
    (xs : List (List ℚ)) (ys : List ℚ) : Except LoopError LoopState :=
  if xs.length == ys.length && xs.all fun x => x.length == space.length then
    Except.ok ⟨s.X ++ xs, s.Y ++ ys⟩
  else
    Except.error LoopError.shapeMismatch

/-- Modelled from the spec (§4.1): `snapshot` returns the full
(inputs, outputs) history in evaluation order. -/
def LoopState.snapshot (s : LoopState) : List (List ℚ) × List ℚ :=
  (s.X, s.Y)

/-- Modelled from the spec (§4.5): the loop's mutable state — the observation
history plus the last proposed batch (`some` exactly in state
`AWAITING_RESULT`, `none` in state `READY`). -/
structure Loop where
  state : LoopState
  lastProposed : Option (List (List ℚ))
deriving DecidableEq

/-- Modelled from the spec (§6 construction interface): a loop is built from
a ParameterSpace and an optional (inputs, outputs) seed history; it starts in
state `READY`. -/
def mkLoop (X : List (List ℚ)) (Y : List ℚ) : Loop :=
  ⟨⟨X, Y⟩, none⟩

/-- Modelled from the spec (§4.5 `get_next_points`): if results are supplied,
first update the history with them; if none are supplied and a batch is still
awaiting results, fail with `ProtocolViolationError` leaving the loop
unchanged; otherwise (first call) run modeling/optimization directly on the
seed history.  `propose` is the deterministic surrogate-model-refit plus
acquisition-optimization pipeline, a function of the full history.  The call
returns the proposed batch (or the error) together with the loop after the
call. -/
def getNextPoints (space : ParameterSpace) (propose : LoopState → List (List ℚ))
    (l : Loop) (results : Option (List (List ℚ) × List ℚ)) :
    Except LoopError (List (List ℚ)) × Loop :=
  match results with
  | some (xs, ys) =>
    match l.state.update space xs ys with
    | Except.error e => (Except.error e, l)
    | Except.ok s' =>
      let batch := propose s'
      (Except.ok batch, ⟨s', some batch⟩)
  | none =>
    match l.lastProposed with
    | some _ => (Except.error LoopError.protocolViolation, l)
    | none =>
      let batch := propose l.state
      (Except.ok batch, ⟨l.state, some batch⟩)

/-- Embedded from the notebook (cell 13): the external driving pattern.  Each
round calls `get_next_points` with the results of the previous round (none on
the first round), evaluates the returned batch on the objective, and keeps
the evaluated results to submit on the next round.  Returns the loop and the
still-unsubmitted results after the requested number of rounds. -/
def externalDrive (space : ParameterSpace) (propose : LoopState → List (List ℚ))
    (objective : List ℚ → ℚ) :
    ℕ → Loop → Option (List (List ℚ) × List ℚ) →
    Except LoopError (Loop × Option (List (List ℚ) × List ℚ))
  | 0, l, r => Except.ok (l, r)
  | n + 1, l, r =>
    match getNextPoints space propose l r with
    | (Except.error e, _) => Except.error e
    | (Except.ok batch, l') =>
      externalDrive space propose objective n l' (some (batch, batch.map objective))

/-- Manual submission of the results still pending after an external drive:
an `update` with the pending results, or the unchanged history when nothing
is pending. -/
def submitPending (space : ParameterSpace) (l : Loop) :
    Option (List (List ℚ) × List ℚ) → Except LoopError LoopState
  | some (xs, ys) => l.state.update space xs ys
  | none => Except.ok l.state

/-- One round of the loop at the history level: append the proposed batch and
its objective values to the history. -/
def stepAppend (propose : LoopState → List (List ℚ)) (objective : List ℚ → ℚ)
    (s : LoopState) : LoopState :=
  ⟨s.X ++ propose s, s.Y ++ (propose s).map objective⟩

/-- `n` rounds of the loop at the history level. -/
def iterAppend (propose : LoopState → List (List ℚ)) (objective : List ℚ → ℚ) :
    ℕ → LoopState → LoopState
  | 0, s => s
  | n + 1, s => iterAppend propose objective n (stepAppend propose objective s)

instance {ε α : Type} [DecidableEq ε] [DecidableEq α] : DecidableEq (Except ε α)
  | Except.error a, Except.error b =>
    decidable_of_iff (a = b) ⟨fun h => h ▸ rfl, fun h => by injection h⟩
  | Except.error _, Except.ok _ => Decidable.isFalse fun h => Except.noConfusion h
  | Except.ok _, Except.error _ => Decidable.isFalse fun h => Except.noConfusion h
  | Except.ok a, Except.ok b =>
    decidable_of_iff (a = b) ⟨fun h => h ▸ rfl, fun h => by injection h⟩

/-- First-maximal element of a list under a rational score: the head is kept
unless a strictly better element appears later, so ties resolve to the
earliest candidate and the result is deterministic.  `none` only on the empty
list. -/
def argmaxList {α : Type} (f : α → ℚ) : List α → Option α
  | [] => none
  | x :: xs =>
    match argmaxList f xs with
    | none => some x
    | some y => if f x < f y then some y else some x

/-- Modelled from the spec (§4.4): the finite candidate set the acquisition
optimizer searches for one parameter — a uniform grid of `g + 1` points over
`[lo, hi]` for a continuous parameter, the declared value set for a discrete
one, the label indices for a categorical one.  Every candidate is a valid
value of the parameter. -/
def Parameter.candidates (g : ℕ) : Parameter → List ℚ
  | .continuous _ lo hi => (List.range (g + 1)).map fun i : ℕ => lo + (hi - lo) * mkRat (i : ℤ) g
  | .discrete _ values => values
  | .categorical _ labels => (List.range labels.length).map fun i : ℕ => mkRat (i : ℤ) 1

/-- Candidate points of a whole space: the cartesian product of the
per-parameter candidate lists, in declared order. -/
def spaceCandidates (g : ℕ) : ParameterSpace → List (List ℚ)
  | [] => [[]]
  | p :: ps => (p.candidates g).flatMap fun v => (spaceCandidates g ps).map (v :: ·)

/-- Modelled from the spec (§4.2): the surrogate model contract the core
depends on — `fit` (re)trains on the full history and yields a predictor
returning a mean and a variance at each query point. -/
structure SurrogateModel where
  fit : List (List ℚ) → List ℚ → (List ℚ → ℚ × ℚ)

/-- Modelled from the spec (§4.3): an acquisition function scores a point
from the fitted model's predictions; higher is better. -/
abbrev AcquisitionFunction := (List ℚ → ℚ × ℚ) → List ℚ → ℚ

/-- Modelled from the spec (§4.4, single-point mode): refit the surrogate on
the full history, then return the candidate batch maximizing the acquisition
score over the space's candidate set — a best-effort maximizer that always
returns an in-space point, never an error, even on a flat landscape. -/
def proposeBatch (g : ℕ) (m : SurrogateModel) (acq : AcquisitionFunction)
    (space : ParameterSpace) (s : LoopState) : List (List ℚ) :=
  match argmaxList (acq (m.fit s.X s.Y)) (spaceCandidates g space) with
  | some p => [p]
  | none => []

/-- Modelled from the spec (§4.5 `run_to_completion`): the fully automatic
variant with an iteration-count stopping condition — repeatedly propose a
batch, invoke the objective on it internally, update the state, until the
iteration budget is exhausted. -/
def runToCompletion (space : ParameterSpace) (propose : LoopState → List (List ℚ))
    (objective : List ℚ → ℚ) : ℕ → Loop → Except LoopError Loop
  | 0, l => Except.ok l
  | n + 1, l =>
    let batch := propose l.state
    match l.state.update space batch (batch.map objective) with
    | Except.error e => Except.error e
    | Except.ok s' => runToCompletion space propose objective n ⟨s', none⟩

/-- The notebook's complete external-evaluation protocol for one experiment:
drive the loop `n` rounds as in cell 13, then manually submit the results
still pending, yielding the final history. -/
def driveThenSubmit (space : ParameterSpace) (propose : LoopState → List (List ℚ))
    (objective : List ℚ → ℚ) (n : ℕ) (l : Loop)
    (r : Option (List (List ℚ) × List ℚ)) : Except LoopError LoopState :=
  match externalDrive space propose objective n l r with
  | Except.ok (l', r') => submitPending space l' r'
  | Except.error e => Except.error e

/-- The final history produced by the fully automatic run. -/
def runStates (space : ParameterSpace) (propose : LoopState → List (List ℚ))
    (objective : List ℚ → ℚ) (n : ℕ) (l : Loop) : Except LoopError LoopState :=
  match runToCompletion space propose objective n l with
  | Except.ok l' => Except.ok l'.state
  | Except.error e => Except.error e

/-- The count of stored inputs equals the count of stored outputs (spec §3
LoopState invariant). -/
def LoopState.balanced (s : LoopState) : Prop :=
  s.X.length = s.Y.length

/-- The history of `s'` extends the history of `s` by appending only: every
observation of `s` is still present, unmutated and in its original position
(spec §3 append-only invariant). -/
def appendOnlyFrom (s s' : LoopState) : Prop :=
  (∃ t, s'.X = s.X ++ t) ∧ (∃ t, s'.Y = s.Y ++ t)

/-- The input history the notebook exports after driving the loop
externally (cell 13: `X = bo.loop_state.X`). -/
def driveResultX (space : ParameterSpace) (propose : LoopState → List (List ℚ))
    (objective : List ℚ → ℚ) (n : ℕ) (l : Loop) : List (List ℚ) :=
  match externalDrive space propose objective n l none with
  | Except.ok (l', _) => l'.state.X
  | Except.error _ => []

/-- The evaluated results still unsubmitted after driving the loop
externally. -/
def drivePending (space : ParameterSpace) (propose : LoopState → List (List ℚ))
    (objective : List ℚ → ℚ) (n : ℕ) (l : Loop) :
    Option (List (List ℚ) × List ℚ) :=
  match externalDrive space propose objective n l none with
  | Except.ok (_, r) => r
  | Except.error _ => none

/-- The notebook's parameter space (cell 9): one continuous parameter `x1`
over `[0, 1]`. -/
def fixSpace : ParameterSpace := [Parameter.continuous "x1" 0 1]

/-- The notebook's seed inputs (cell 11): X = [[0.1], [0.6], [0.9]]. -/
def fixSeedX : List (List ℚ) := [[mkRat 1 10], [mkRat 6 10], [mkRat 9 10]]

/-- A fixed deterministic stand-in objective for concrete runs: the first
coordinate of the point. -/
def fixObjective : List ℚ → ℚ := fun x => x.headD 0

/-- A concrete surrogate model instance for concrete runs: a constant
predictor (mean 0, variance 1) regardless of the history. -/
def fixModel : SurrogateModel := ⟨fun _ _ => fun _ => (0, 1)⟩

/-- A concrete acquisition function: the predictive mean — flat under
`fixModel`, exercising the no-clear-optimum regime. -/
def fixAcq : AcquisitionFunction := fun pred q => (pred q).1

/-- The full modelled pipeline over the notebook's space: refit `fixModel`,
maximize `fixAcq` over an 11-point grid on `[0, 1]`. -/
def fixPropose : LoopState → List (List ℚ) := proposeBatch 10 fixModel fixAcq fixSpace

/-- A small discrete space for kernel-computable witnesses. -/
def fixSpaceD : ParameterSpace := [Parameter.discrete "d" [mkRat 0 1, mkRat 1 2]]

/-- The modelled pipeline over the discrete space. -/
def fixProposeD : LoopState → List (List ℚ) := proposeBatch 0 fixModel fixAcq fixSpaceD

/-- A constant single-point proposer, used as a deterministic
model-plus-optimizer instance in concrete equivalence runs. -/
def fixConstPropose : LoopState → List (List ℚ) := fun _ => [[mkRat 1 2]]


theorem mkRat_nat_nonneg (i g : ℕ) : (0 : ℚ) ≤ mkRat i g := by
  rw [Rat.mkRat_eq_divInt, Rat.divInt_eq_div]
  push_cast
  positivity

theorem mkRat_nat_le_one (i g : ℕ) (h : i ≤ g) : (mkRat i g : ℚ) ≤ 1 := by
  rw [Rat.mkRat_eq_divInt, Rat.divInt_eq_div]
  push_cast
  rcases Nat.eq_zero_or_pos g with hg | hg
  · subst hg
    simp
  · rw [div_le_one (by exact_mod_cast hg)]
    exact_mod_cast h

theorem Parameter.candidates_valid (g : ℕ) (p : Parameter) (hp : p.feasible) :
    ∀ v ∈ p.candidates g, p.validValue v = true := by
  intro v hv
  cases p with
  | continuous name lo hi =>
    obtain ⟨i, hir, hveq⟩ := List.mem_map.mp hv
    have hig : i ≤ g := Nat.lt_succ_iff.mp (List.mem_range.mp hir)
    have hle : lo ≤ hi := hp
    have ht0 : (0 : ℚ) ≤ mkRat i g := mkRat_nat_nonneg i g
    have ht1 : (mkRat i g : ℚ) ≤ 1 := mkRat_nat_le_one i g hig
    have hlo : lo ≤ lo + (hi - lo) * mkRat i g := by
      have hm := mul_nonneg (sub_nonneg.mpr hle) ht0
      linarith
    have hhi : lo + (hi - lo) * mkRat i g ≤ hi := by
      have hm := mul_le_of_le_one_right (sub_nonneg.mpr hle) ht1
      linarith
    rw [← hveq]
    simp only [Parameter.validValue, Bool.and_eq_true, decide_eq_true_eq]
    exact ⟨hlo, hhi⟩
  | discrete name values =>
    simp only [Parameter.validValue]
    exact List.elem_eq_true_of_mem hv
  | categorical name labels =>
    obtain ⟨i, hir, hveq⟩ := List.mem_map.mp hv
    rw [← hveq]
    simp only [Parameter.validValue, List.any_eq_true]
    exact ⟨i, hir, by simp⟩

theorem Parameter.candidates_ne_nil (g : ℕ) (p : Parameter) (hp : p.feasible) :
    p.candidates g ≠ [] := by
  cases p with
  | continuous name lo hi =>
    have hlen : (Parameter.candidates g (.continuous name lo hi)).length = g + 1 := by
      simp [Parameter.candidates]
    intro hnil
    rw [hnil] at hlen
    exact Nat.succ_ne_zero g hlen.symm
  | discrete name values =>
    exact hp
  | categorical name labels =>
    have hlen : (Parameter.candidates g (.categorical name labels)).length = labels.length := by
      simp [Parameter.candidates]
    intro hnil
    rw [hnil] at hlen
    exact hp (List.length_eq_zero.mp hlen.symm)

theorem spaceCandidates_valid (g : ℕ) :
    ∀ (space : ParameterSpace), (∀ p ∈ space, p.feasible) →
      ∀ q ∈ spaceCandidates g space, validPoint space q = true := by
  intro space
  induction space with
  | nil =>
    intro _ q hq
    simp only [spaceCandidates, List.mem_singleton] at hq
    simp [hq, validPoint]
  | cons p ps ih =>
    intro hfeas q hq
    simp only [spaceCandidates, List.mem_flatMap, List.mem_map] at hq
    obtain ⟨v, hv, t, ht, rfl⟩ := hq
    have hpv : p.validValue v = true :=
      Parameter.candidates_valid g p (hfeas p (List.mem_cons_self p ps)) v hv
    have htv : validPoint ps t = true :=
      ih (fun r hr => hfeas r (List.mem_cons_of_mem p hr)) t ht
    simp [validPoint, hpv, htv]

theorem spaceCandidates_ne_nil (g : ℕ) :
    ∀ (space : ParameterSpace), (∀ p ∈ space, p.feasible) →
      spaceCandidates g space ≠ [] := by
  intro space
  induction space with
  | nil => intro _; simp [spaceCandidates]
  | cons p ps ih =>
    intro hfeas
    have hpc : p.candidates g ≠ [] :=
      Parameter.candidates_ne_nil g p (hfeas p (List.mem_cons_self p ps))
    have hps : spaceCandidates g ps ≠ [] :=
      ih fun r hr => hfeas r (List.mem_cons_of_mem p hr)
    obtain ⟨v, hv⟩ := List.exists_mem_of_ne_nil _ hpc
    obtain ⟨t, ht⟩ := List.exists_mem_of_ne_nil _ hps
    intro hnil
    have : (v :: t) ∈ spaceCandidates g (p :: ps) := by
      simp only [spaceCandidates, List.mem_flatMap, List.mem_map]
      exact ⟨v, hv, t, ht, rfl⟩
    rw [hnil] at this
    exact List.not_mem_nil _ this

theorem validPoint_length :
    ∀ (space : ParameterSpace) (q : List ℚ), validPoint space q = true →
      q.length = space.length := by
  intro space
  induction space with
  | nil =>
    intro q h
    cases q with
    | nil => rfl
    | cons a as => simp [validPoint] at h
  | cons p ps ih =>
    intro q h
    cases q with
    | nil => simp [validPoint] at h
    | cons a as =>
      simp only [validPoint, Bool.and_eq_true] at h
      simp [ih as h.2]

theorem LoopState.update_ok (space : ParameterSpace) (s : LoopState)
    (xs : List (List ℚ)) (ys : List ℚ) (h1 : xs.length = ys.length)
    (h2 : ∀ x ∈ xs, x.length = space.length) :
    s.update space xs ys = Except.ok ⟨s.X ++ xs, s.Y ++ ys⟩ := by
  have hc : (xs.length == ys.length && xs.all fun x => x.length == space.length) = true := by
    simp only [Bool.and_eq_true, beq_iff_eq, List.all_eq_true]
    exact ⟨h1, fun x hx => h2 x hx⟩
  simp [LoopState.update, hc]

theorem LoopState.update_ok_inv (space : ParameterSpace) (s s' : LoopState)
    (xs : List (List ℚ)) (ys : List ℚ)
    (h : s.update space xs ys = Except.ok s') :
    s'.X = s.X ++ xs ∧ s'.Y = s.Y ++ ys ∧ xs.length = ys.length := by
  by_cases hc : (xs.length == ys.length && xs.all fun x => x.length == space.length) = true
  · have hok : s.update space xs ys = Except.ok (⟨s.X ++ xs, s.Y ++ ys⟩ : LoopState) := by
      simp [LoopState.update, hc]
    rw [hok] at h
    cases h
    refine ⟨rfl, rfl, ?_⟩
    have hand := (Bool.and_eq_true _ _).mp hc
    exact beq_iff_eq.mp hand.1
  · exfalso
    rw [Bool.not_eq_true] at hc
    simp [LoopState.update, hc] at h

theorem argmaxList_mem {α : Type} (f : α → ℚ) :
    ∀ (l : List α) (x : α), argmaxList f l = some x → x ∈ l := by
  intro l
  induction l with
  | nil => intro x h; simp [argmaxList] at h
  | cons a as ih =>
    intro x h
    cases hr : argmaxList f as with
    | none =>
      simp only [argmaxList, hr] at h
      exact ((Option.some.injEq _ _).mp h) ▸ List.mem_cons_self a as
    | some y =>
      simp only [argmaxList, hr] at h
      by_cases hlt : f a < f y
      · rw [if_pos hlt] at h
        have hyx : y = x := (Option.some.injEq _ _).mp h
        exact List.mem_cons_of_mem a (hyx ▸ ih y hr)
      · rw [if_neg hlt] at h
        exact ((Option.some.injEq _ _).mp h) ▸ List.mem_cons_self a as

theorem argmaxList_isSome {α : Type} (f : α → ℚ) (l : List α) (h : l ≠ []) :
    ∃ x, argmaxList f l = some x := by
  cases l with
  | nil => exact absurd rfl h
  | cons a as =>
    cases hr : argmaxList f as with
    | none => exact ⟨a, by simp only [argmaxList, hr]⟩
    | some y =>
      by_cases hlt : f a < f y
      · refine ⟨y, ?_⟩
        simp only [argmaxList, hr]
        rw [if_pos hlt]
      · refine ⟨a, ?_⟩
        simp only [argmaxList, hr]
        rw [if_neg hlt]

theorem proposeBatch_spec (g : ℕ) (m : SurrogateModel) (acq : AcquisitionFunction)
    (space : ParameterSpace) (s : LoopState) (hfeas : ∀ p ∈ space, p.feasible) :
    ∃ pt, proposeBatch g m acq space s = [pt] ∧ validPoint space pt = true := by
  obtain ⟨pt, hpt⟩ :=
    argmaxList_isSome (acq (m.fit s.X s.Y)) (spaceCandidates g space)
      (spaceCandidates_ne_nil g space hfeas)
  refine ⟨pt, ?_, ?_⟩
  · simp [proposeBatch, hpt]
  · exact spaceCandidates_valid g space hfeas pt (argmaxList_mem _ _ pt hpt)

theorem update_batch_ok (space : ParameterSpace) (s : LoopState)
    (batch : List (List ℚ)) (objective : List ℚ → ℚ)
    (Hd : ∀ p ∈ batch, p.length = space.length) :
    s.update space batch (batch.map objective) =
      Except.ok ⟨s.X ++ batch, s.Y ++ batch.map objective⟩ :=
  LoopState.update_ok space s batch (batch.map objective) (by simp) Hd

theorem iterAppend_step_comm (propose : LoopState → List (List ℚ))
    (objective : List ℚ → ℚ) :
    ∀ (n : ℕ) (s : LoopState),
      iterAppend propose objective n (stepAppend propose objective s) =
        stepAppend propose objective (iterAppend propose objective n s) := by
  intro n
  induction n with
  | zero => intro s; rfl
  | succ n ih =>
    intro s
    calc iterAppend propose objective (n + 1) (stepAppend propose objective s)
        = iterAppend propose objective n
            (stepAppend propose objective (stepAppend propose objective s)) := rfl
      _ = stepAppend propose objective
            (iterAppend propose objective n (stepAppend propose objective s)) :=
          ih (stepAppend propose objective s)
      _ = stepAppend propose objective (iterAppend propose objective (n + 1) s) := rfl

theorem runToCompletion_closed (space : ParameterSpace)
    (propose : LoopState → List (List ℚ)) (objective : List ℚ → ℚ)
    (Hdim : ∀ s, ∀ p ∈ propose s, p.length = space.length) :
    ∀ (n : ℕ) (s : LoopState),
      runToCompletion space propose objective n ⟨s, none⟩ =
        Except.ok ⟨iterAppend propose objective n s, none⟩ := by
  intro n
  induction n with
  | zero => intro s; rfl
  | succ n ih =>
    intro s
    have hup := update_batch_ok space s (propose s) objective fun p hp => Hdim s p hp
    simp only [runToCompletion, hup]
    exact ih (stepAppend propose objective s)

theorem externalDrive_closed (space : ParameterSpace)
    (propose : LoopState → List (List ℚ)) (objective : List ℚ → ℚ)
    (Hdim : ∀ s, ∀ p ∈ propose s, p.length = space.length) :
    ∀ (n : ℕ) (s : LoopState),
      externalDrive space propose objective n ⟨s, some (propose s)⟩
          (some (propose s, (propose s).map objective)) =
        Except.ok (⟨iterAppend propose objective n s,
            some (propose (iterAppend propose objective n s))⟩,
          some (propose (iterAppend propose objective n s),
            (propose (iterAppend propose objective n s)).map objective)) := by
  intro n
  induction n with
  | zero => intro s; rfl
  | succ n ih =>
    intro s
    have hup := update_batch_ok space s (propose s) objective fun p hp => Hdim s p hp
    simp only [externalDrive, getNextPoints, hup]
    exact ih (stepAppend propose objective s)

theorem appendOnlyFrom_refl (s : LoopState) : appendOnlyFrom s s :=
  ⟨⟨[], by simp⟩, ⟨[], by simp⟩⟩

theorem appendOnlyFrom_trans {s s' s'' : LoopState}
    (h1 : appendOnlyFrom s s') (h2 : appendOnlyFrom s' s'') :
    appendOnlyFrom s s'' := by
  obtain ⟨⟨tx, hx⟩, ⟨ty, hy⟩⟩ := h1
  obtain ⟨⟨tx', hx'⟩, ⟨ty', hy'⟩⟩ := h2
  exact ⟨⟨tx ++ tx', by rw [hx', hx, List.append_assoc]⟩,
    ⟨ty ++ ty', by rw [hy', hy, List.append_assoc]⟩⟩

theorem update_balanced (space : ParameterSpace) (s s' : LoopState)
    (xs : List (List ℚ)) (ys : List ℚ)
    (h : s.update space xs ys = Except.ok s') (hb : s.balanced) : s'.balanced := by
  obtain ⟨hX, hY, hlen⟩ := LoopState.update_ok_inv space s s' xs ys h
  unfold LoopState.balanced at *
  rw [hX, hY, List.length_append, List.length_append, hb, hlen]

theorem update_appendOnly (space : ParameterSpace) (s s' : LoopState)
    (xs : List (List ℚ)) (ys : List ℚ)
    (h : s.update space xs ys = Except.ok s') : appendOnlyFrom s s' := by
  obtain ⟨hX, hY, _⟩ := LoopState.update_ok_inv space s s' xs ys h
  exact ⟨⟨xs, hX⟩, ⟨ys, hY⟩⟩

theorem stepAppend_appendOnly (propose : LoopState → List (List ℚ))
    (objective : List ℚ → ℚ) (s : LoopState) :
    appendOnlyFrom s (stepAppend propose objective s) :=
  ⟨⟨propose s, rfl⟩, ⟨(propose s).map objective, rfl⟩⟩

theorem stepAppend_balanced (propose : LoopState → List (List ℚ))
    (objective : List ℚ → ℚ) (s : LoopState) (hb : s.balanced) :
    (stepAppend propose objective s).balanced := by
  unfold LoopState.balanced at *
  simp [stepAppend, hb]

theorem iterAppend_appendOnly (propose : LoopState → List (List ℚ))
    (objective : List ℚ → ℚ) :
    ∀ (n : ℕ) (s : LoopState), appendOnlyFrom s (iterAppend propose objective n s) := by
  intro n
  induction n with
  | zero => intro s; exact appendOnlyFrom_refl s
  | succ n ih =>
    intro s
    exact appendOnlyFrom_trans (stepAppend_appendOnly propose objective s)
      (ih (stepAppend propose objective s))

theorem iterAppend_balanced (propose : LoopState → List (List ℚ))
    (objective : List ℚ → ℚ) :
    ∀ (n : ℕ) (s : LoopState), s.balanced → (iterAppend propose objective n s).balanced := by
  intro n
  induction n with
  | zero => intro s hb; exact hb
  | succ n ih =>
    intro s hb
    exact ih (stepAppend propose objective s) (stepAppend_balanced propose objective s hb)

theorem iterAppend_X_length (propose : LoopState → List (List ℚ))
    (objective : List ℚ → ℚ) (Hone : ∀ s, (propose s).length = 1) :
    ∀ (n : ℕ) (s : LoopState),
      (iterAppend propose objective n s).X.length = s.X.length + n := by
  intro n
  induction n with
  | zero => intro s; rfl
  | succ n ih =>
    intro s
    have hstep := ih (stepAppend propose objective s)
    have hone : (stepAppend propose objective s).X.length = s.X.length + 1 := by
      simp [stepAppend, Hone s]
    calc (iterAppend propose objective (n + 1) s).X.length
        = (stepAppend propose objective s).X.length + n := hstep
      _ = s.X.length + (n + 1) := by rw [hone]; omega

theorem externalDrive_from_ready (space : ParameterSpace)
    (propose : LoopState → List (List ℚ)) (objective : List ℚ → ℚ)
    (Hdim : ∀ s, ∀ p ∈ propose s, p.length = space.length)
    (n : ℕ) (s : LoopState) :
    externalDrive space propose objective (n + 1) ⟨s, none⟩ none =
      Except.ok (⟨iterAppend propose objective n s,
          some (propose (iterAppend propose objective n s))⟩,
        some (propose (iterAppend propose objective n s),
          (propose (iterAppend propose objective n s)).map objective)) := by
  have h := externalDrive_closed space propose objective Hdim n s
  simp only [externalDrive, getNextPoints]
  exact h

theorem fixSpace_feasible : ∀ p ∈ fixSpace, p.feasible := by
  intro p hp
  rw [fixSpace, List.mem_singleton] at hp
  subst hp
  show (0 : ℚ) ≤ 1
  decide

theorem fixSpaceD_feasible : ∀ p ∈ fixSpaceD, p.feasible := by
  intro p hp
  rw [fixSpaceD, List.mem_singleton] at hp
  subst hp
  show ([mkRat 0 1, mkRat 1 2] : List ℚ) ≠ []
  decide

theorem fixPropose_dim : ∀ s, ∀ p ∈ fixPropose s, p.length = fixSpace.length := by
  intro s p hp
  obtain ⟨pt, hpt, hv⟩ := proposeBatch_spec 10 fixModel fixAcq fixSpace s fixSpace_feasible
  have he : fixPropose s = [pt] := hpt
  rw [he, List.mem_singleton] at hp
  subst hp
  exact validPoint_length fixSpace p hv

theorem fixPropose_one : ∀ s, (fixPropose s).length = 1 := by
  intro s
  obtain ⟨pt, hpt, _⟩ := proposeBatch_spec 10 fixModel fixAcq fixSpace s fixSpace_feasible
  have he : fixPropose s = [pt] := hpt
  rw [he]
  rfl

theorem fixConstPropose_dim : ∀ s, ∀ p ∈ fixConstPropose s, p.length = fixSpace.length := by
  intro s p hp
  rw [fixConstPropose, List.mem_singleton] at hp
  subst hp
  rfl

/-- Claim C1: for a deterministic surrogate model and acquisition optimizer —
modelled as a proposer that is a pure function of the history and emits
points of the space's dimensionality — driving the loop N rounds externally
via `get_next_points` plus manual result submission produces the same final
LoopState (the same points in the same order) as `run_to_completion` with an
N-iteration stopping condition, from the same seed history and objective. -/
theorem externalDrive_matches_runToCompletion (space : ParameterSpace)
    (propose : LoopState → List (List ℚ)) (objective : List ℚ → ℚ)
    (Hdim : ∀ s, ∀ p ∈ propose s, p.length = space.length)
    (N : ℕ) (X : List (List ℚ)) (Y : List ℚ) :
    driveThenSubmit space propose objective N (mkLoop X Y) none =
      runStates space propose objective N (mkLoop X Y) := by
  cases N with
  | zero => rfl
  | succ n =>
    have hdrive := externalDrive_from_ready space propose objective Hdim n ⟨X, Y⟩
    have hrun := runToCompletion_closed space propose objective Hdim (n + 1) ⟨X, Y⟩
    have hup := update_batch_ok space (iterAppend propose objective n ⟨X, Y⟩)
      (propose (iterAppend propose objective n ⟨X, Y⟩)) objective
      (fun p hp => Hdim _ p hp)
    simp only [driveThenSubmit, runStates, mkLoop, hdrive, hrun, submitPending, hup]
    exact congrArg Except.ok (iterAppend_step_comm propose objective n ⟨X, Y⟩).symm

/-- Claim C1 witness: the equivalence at a concrete instance — the notebook's
space and seed, a concrete deterministic single-point proposer, three
rounds. -/
theorem externalDrive_matches_runToCompletion_witness :
    driveThenSubmit fixSpace fixConstPropose fixObjective 3
        (mkLoop fixSeedX (fixSeedX.map fixObjective)) none =
      runStates fixSpace fixConstPropose fixObjective 3
        (mkLoop fixSeedX (fixSeedX.map fixObjective)) :=
  externalDrive_matches_runToCompletion fixSpace fixConstPropose fixObjective
    fixConstPropose_dim 3 fixSeedX (fixSeedX.map fixObjective)

/-- Claim C2 counterexample: in the notebook's concrete scenario (space
`x1 ∈ [0,1]`, seed X = [[0.1],[0.6],[0.9]], Y from a fixed deterministic
function, 10 rounds of single-point `get_next_points` driven as in cell 13,
with the modelled surrogate/acquisition pipeline), the exported history does
not contain 13 observations — cell 16 of the notebook shows 12 rows. -/
theorem notebook_history_not_thirteen :
    (driveResultX fixSpace fixPropose fixObjective 10
        (mkLoop fixSeedX (fixSeedX.map fixObjective))).length ≠ 13 := by
  have hdrive := externalDrive_from_ready fixSpace fixPropose fixObjective
    fixPropose_dim 9 ⟨fixSeedX, fixSeedX.map fixObjective⟩
  rw [show (10 : ℕ) = 9 + 1 from rfl]
  simp only [driveResultX, mkLoop, hdrive]
  rw [iterAppend_X_length fixPropose fixObjective fixPropose_one 9
    ⟨fixSeedX, fixSeedX.map fixObjective⟩]
  decide

/-- Claim C2 (amended): with one continuous parameter `x1` in `[0,1]` and
seed observations X = [[0.1],[0.6],[0.9]] with Y from a fixed deterministic
test function, after 10 rounds of single-point `get_next_points` driven as
in the notebook, the loop's exported history contains exactly 12
observations — the result of the 10th proposed point has not yet been
submitted — and its first three observations equal the seed in the original
order. -/
theorem notebook_scenario_history (propose : LoopState → List (List ℚ))
    (objective : List ℚ → ℚ)
    (Hdim : ∀ s, ∀ p ∈ propose s, p.length = fixSpace.length)
    (Hone : ∀ s, (propose s).length = 1) :
    (driveResultX fixSpace propose objective 10
        (mkLoop fixSeedX (fixSeedX.map objective))).length = 12 ∧
      (driveResultX fixSpace propose objective 10
        (mkLoop fixSeedX (fixSeedX.map objective))).take 3 = fixSeedX := by
  have hdrive := externalDrive_from_ready fixSpace propose objective Hdim 9
    ⟨fixSeedX, fixSeedX.map objective⟩
  rw [show (10 : ℕ) = 9 + 1 from rfl]
  constructor
  · simp only [driveResultX, mkLoop, hdrive]
    rw [iterAppend_X_length propose objective Hone 9 ⟨fixSeedX, fixSeedX.map objective⟩]
    rfl
  · simp only [driveResultX, mkLoop, hdrive]
    obtain ⟨⟨tx, hx⟩, _⟩ :=
      iterAppend_appendOnly propose objective 9 ⟨fixSeedX, fixSeedX.map objective⟩
    rw [hx]
    rw [show (3 : ℕ) = fixSeedX.length from rfl]
    exact List.take_left fixSeedX tx

/-- Claim C2 witness: the amended statement at the modelled
surrogate/acquisition pipeline. -/
theorem notebook_scenario_history_witness :
    (driveResultX fixSpace fixPropose fixObjective 10
        (mkLoop fixSeedX (fixSeedX.map fixObjective))).length = 12 ∧
      (driveResultX fixSpace fixPropose fixObjective 10
        (mkLoop fixSeedX (fixSeedX.map fixObjective))).take 3 = fixSeedX :=
  notebook_scenario_history fixPropose fixObjective fixPropose_dim fixPropose_one

/-- Claim C3: in the external-driving pattern of cell 13, the result of the
most recently proposed point is only appended on the next `get_next_points`
call, so after N rounds from a 3-observation seed with single-point batches
the exported history has exactly 3 + (N - 1) observations while the final
evaluated result is still pending (unsubmitted), hence absent from the
exported history. -/
theorem externalDrive_deferred_history (space : ParameterSpace)
    (propose : LoopState → List (List ℚ)) (objective : List ℚ → ℚ)
    (N : ℕ) (s0 : LoopState)
    (Hdim : ∀ s, ∀ p ∈ propose s, p.length = space.length)
    (Hone : ∀ s, (propose s).length = 1)
    (h3 : s0.X.length = 3) (hN : 1 ≤ N) :
    (driveResultX space propose objective N ⟨s0, none⟩).length = 3 + (N - 1) ∧
      (drivePending space propose objective N ⟨s0, none⟩).isSome = true := by
  obtain ⟨n, rfl⟩ : ∃ n, N = n + 1 := ⟨N - 1, (Nat.succ_pred_eq_of_pos hN).symm⟩
  have hdrive := externalDrive_from_ready space propose objective Hdim n s0
  constructor
  · simp only [driveResultX, hdrive]
    rw [iterAppend_X_length propose objective Hone n s0, h3]
    omega
  · simp only [drivePending, hdrive, Option.isSome_some]

/-- Claim C3 witness: the count at the notebook's instance — N = 10 rounds
with the modelled pipeline gives 3 + 9 = 12 exported observations and a
pending final result. -/
theorem externalDrive_deferred_history_witness :
    (driveResultX fixSpace fixPropose fixObjective 10
        ⟨⟨fixSeedX, fixSeedX.map fixObjective⟩, none⟩).length = 3 + (10 - 1) ∧
      (drivePending fixSpace fixPropose fixObjective 10
        ⟨⟨fixSeedX, fixSeedX.map fixObjective⟩, none⟩).isSome = true :=
  externalDrive_deferred_history fixSpace fixPropose fixObjective 10
    ⟨fixSeedX, fixSeedX.map fixObjective⟩ fixPropose_dim fixPropose_one rfl
    (by decide)

/-- Claim C4: calling `get_next_points` a second consecutive time without an
intervening update supplying results for the first proposal fails with
`ProtocolViolationError` and leaves the loop (hence its LoopState) unchanged,
while a first call with no results and no previously proposed batch succeeds
and runs modeling/optimization directly on the seed history. -/
theorem getNextPoints_protocol (space : ParameterSpace)
    (propose : LoopState → List (List ℚ)) (l l0 : Loop) (B : List (List ℚ))
    (hB : l.lastProposed = some B) (h0 : l0.lastProposed = none) :
    getNextPoints space propose l none =
        (Except.error LoopError.protocolViolation, l) ∧
      getNextPoints space propose l0 none =
        (Except.ok (propose l0.state), ⟨l0.state, some (propose l0.state)⟩) := by
  constructor
  · simp only [getNextPoints, hB]
  · simp only [getNextPoints, h0]

/-- Claim C4 witness: the protocol at concrete loops — one awaiting results,
one freshly seeded. -/
theorem getNextPoints_protocol_witness :
    getNextPoints fixSpace fixConstPropose
        ⟨⟨fixSeedX, fixSeedX.map fixObjective⟩, some [[mkRat 1 2]]⟩ none =
      (Except.error LoopError.protocolViolation,
        ⟨⟨fixSeedX, fixSeedX.map fixObjective⟩, some [[mkRat 1 2]]⟩) ∧
      getNextPoints fixSpace fixConstPropose
        (mkLoop fixSeedX (fixSeedX.map fixObjective)) none =
      (Except.ok (fixConstPropose (mkLoop fixSeedX (fixSeedX.map fixObjective)).state),
        ⟨(mkLoop fixSeedX (fixSeedX.map fixObjective)).state,
          some (fixConstPropose (mkLoop fixSeedX (fixSeedX.map fixObjective)).state)⟩) :=
  getNextPoints_protocol fixSpace fixConstPropose
    ⟨⟨fixSeedX, fixSeedX.map fixObjective⟩, some [[mkRat 1 2]]⟩
    (mkLoop fixSeedX (fixSeedX.map fixObjective)) [[mkRat 1 2]] rfl rfl

/-- Claim C5: for every ParameterSpace and every batch of observations with
matching shapes, `update` followed by `snapshot` returns exactly the
submitted observations in submission order — nothing lost, duplicated or
reordered. -/
theorem update_snapshot_exact (space : ParameterSpace)
    (xs : List (List ℚ)) (ys : List ℚ) (h1 : xs.length = ys.length)
    (h2 : ∀ x ∈ xs, x.length = space.length) :
    (LoopState.update space ⟨[], []⟩ xs ys = Except.ok ⟨xs, ys⟩) ∧
      LoopState.snapshot ⟨xs, ys⟩ = (xs, ys) := by
  constructor
  · have h := LoopState.update_ok space ⟨[], []⟩ xs ys h1 h2
    simpa using h
  · rfl

/-- Claim C5 witness: a concrete two-observation submission round-trips
through update and snapshot. -/
theorem update_snapshot_exact_witness :
    (LoopState.update fixSpace ⟨[], []⟩ [[mkRat 1 10], [mkRat 6 10]]
        [mkRat 1 10, mkRat 6 10] =
      Except.ok ⟨[[mkRat 1 10], [mkRat 6 10]], [mkRat 1 10, mkRat 6 10]⟩) ∧
      LoopState.snapshot ⟨[[mkRat 1 10], [mkRat 6 10]], [mkRat 1 10, mkRat 6 10]⟩ =
        ([[mkRat 1 10], [mkRat 6 10]], [mkRat 1 10, mkRat 6 10]) :=
  update_snapshot_exact fixSpace [[mkRat 1 10], [mkRat 6 10]]
    [mkRat 1 10, mkRat 6 10] (by decide) (by decide)

/-- Claim C6: across every mutating operation of the core — `update`,
`get_next_points` (in all of its outcomes) and `run_to_completion` — the
count of stored inputs equals the count of stored outputs, and the history is
append-only: the previous history is an unmutated prefix of the new one. -/
theorem loopState_invariants (space : ParameterSpace)
    (propose : LoopState → List (List ℚ)) (objective : List ℚ → ℚ) :
    (∀ (s s' : LoopState) (xs : List (List ℚ)) (ys : List ℚ),
        s.update space xs ys = Except.ok s' →
          (s.balanced → s'.balanced) ∧ appendOnlyFrom s s') ∧
    (∀ (l : Loop) (r : Option (List (List ℚ) × List ℚ))
        (res : Except LoopError (List (List ℚ))) (l' : Loop),
        getNextPoints space propose l r = (res, l') →
          (l.state.balanced → l'.state.balanced) ∧
            appendOnlyFrom l.state l'.state) ∧
    (∀ (n : ℕ) (l l' : Loop),
        runToCompletion space propose objective n l = Except.ok l' →
          (l.state.balanced → l'.state.balanced) ∧
            appendOnlyFrom l.state l'.state) := by
  refine ⟨?_, ?_, ?_⟩
  · intro s s' xs ys h
    exact ⟨update_balanced space s s' xs ys h, update_appendOnly space s s' xs ys h⟩
  · intro l r res l' h
    cases r with
    | some xy =>
      obtain ⟨xs, ys⟩ := xy
      cases hu : l.state.update space xs ys with
      | error e =>
        simp only [getNextPoints, hu] at h
        rw [Prod.mk.injEq] at h
        rw [← h.2]
        exact ⟨fun hb => hb, appendOnlyFrom_refl _⟩
      | ok s1 =>
        simp only [getNextPoints, hu] at h
        rw [Prod.mk.injEq] at h
        rw [← h.2]
        exact ⟨update_balanced space l.state s1 xs ys hu,
          update_appendOnly space l.state s1 xs ys hu⟩
    | none =>
      cases hl : l.lastProposed with
      | some B =>
        simp only [getNextPoints, hl] at h
        rw [Prod.mk.injEq] at h
        rw [← h.2]
        exact ⟨fun hb => hb, appendOnlyFrom_refl _⟩
      | none =>
        simp only [getNextPoints, hl] at h
        rw [Prod.mk.injEq] at h
        rw [← h.2]
        exact ⟨fun hb => hb, appendOnlyFrom_refl _⟩
  · intro n
    induction n with
    | zero =>
      intro l l' h
      have hll : l = l' := by
        simpa [runToCompletion] using h
      rw [← hll]
      exact ⟨fun hb => hb, appendOnlyFrom_refl _⟩
    | succ n ih =>
      intro l l' h
      cases hu : l.state.update space (propose l.state)
          ((propose l.state).map objective) with
      | error e =>
        simp only [runToCompletion, hu] at h
        exact absurd h fun hc => Except.noConfusion hc
      | ok s1 =>
        simp only [runToCompletion, hu] at h
        have hrec := ih ⟨s1, none⟩ l' h
        have hb1 := update_balanced space l.state s1 _ _ hu
        have ha1 := update_appendOnly space l.state s1 _ _ hu
        exact ⟨fun hb => hrec.1 (hb1 hb), appendOnlyFrom_trans ha1 hrec.2⟩

/-- Claim C6 witness: the update conjunct at a concrete one-observation
append from the empty history. -/
theorem loopState_invariants_witness :
    LoopState.balanced ⟨[[mkRat 1 2]], [mkRat 7 1]⟩ ∧
      appendOnlyFrom ⟨[], []⟩ ⟨[[mkRat 1 2]], [mkRat 7 1]⟩ := by
  have h := (loopState_invariants fixSpace fixConstPropose fixObjective).1
    ⟨[], []⟩ ⟨[[mkRat 1 2]], [mkRat 7 1]⟩ [[mkRat 1 2]] [mkRat 7 1] (by decide)
  exact ⟨h.1 rfl, h.2⟩

/-- Claim C7: every point in every candidate batch returned by the loop
through `get_next_points` with the modelled surrogate/acquisition pipeline
satisfies the ParameterSpace's validity predicate for all parameters; for a
single continuous parameter with range `[0,1]` this puts every proposed
coordinate inside `[0,1]` inclusive. -/
theorem loop_batch_in_space (g : ℕ) (m : SurrogateModel) (acq : AcquisitionFunction)
    (space : ParameterSpace) (hfeas : ∀ p ∈ space, p.feasible)
    (l : Loop) (r : Option (List (List ℚ) × List ℚ))
    (batch : List (List ℚ)) (l' : Loop)
    (h : getNextPoints space (proposeBatch g m acq space) l r = (Except.ok batch, l')) :
    ∀ q ∈ batch, validPoint space q = true := by
  have key : ∀ s : LoopState, ∀ q ∈ proposeBatch g m acq space s,
      validPoint space q = true := by
    intro s q hq
    obtain ⟨pt, hpt, hval⟩ := proposeBatch_spec g m acq space s hfeas
    rw [hpt, List.mem_singleton] at hq
    subst hq
    exact hval
  cases r with
  | some xy =>
    obtain ⟨xs, ys⟩ := xy
    cases hu : l.state.update space xs ys with
    | error e =>
      simp only [getNextPoints, hu] at h
      rw [Prod.mk.injEq] at h
      exact absurd h.1 fun hc => Except.noConfusion hc
    | ok s1 =>
      simp only [getNextPoints, hu] at h
      rw [Prod.mk.injEq] at h
      have hb : proposeBatch g m acq space s1 = batch := by
        injection h.1
      exact hb ▸ key s1
  | none =>
    cases hl : l.lastProposed with
    | some B =>
      simp only [getNextPoints, hl] at h
      rw [Prod.mk.injEq] at h
      exact absurd h.1 fun hc => Except.noConfusion hc
    | none =>
      simp only [getNextPoints, hl] at h
      rw [Prod.mk.injEq] at h
      have hb : proposeBatch g m acq space l.state = batch := by
        injection h.1
      exact hb ▸ key l.state

/-- Claim C7 witness: the point proposed by a concrete `get_next_points`
call on the discrete fixture space is valid for that space. -/
theorem loop_batch_in_space_witness :
    validPoint fixSpaceD [mkRat 0 1] = true :=
  loop_batch_in_space 0 fixModel fixAcq fixSpaceD fixSpaceD_feasible
    (mkLoop [] []) none [[mkRat 0 1]] ⟨⟨[], []⟩, some [[mkRat 0 1]]⟩
    (by decide) [mkRat 0 1] (by decide)

/-- Claim C8: `update` fails with `ShapeMismatchError` when an input's
dimensionality disagrees with the ParameterSpace or when the input and
output counts within the submitted batch disagree, and on such a failure no
updated LoopState is produced — the caller's state is preserved exactly. -/
theorem update_shape_mismatch (space : ParameterSpace) (s : LoopState)
    (xs : List (List ℚ)) (ys : List ℚ)
    (h : xs.length ≠ ys.length ∨ ∃ x ∈ xs, x.length ≠ space.length) :
    s.update space xs ys = Except.error LoopError.shapeMismatch ∧
      ∀ s', s.update space xs ys ≠ Except.ok s' := by
  have hc : (xs.length == ys.length && xs.all fun x => x.length == space.length) = false := by
    by_contra hc'
    rw [Bool.not_eq_false] at hc'
    obtain ⟨h1, h2⟩ := (Bool.and_eq_true _ _).mp hc'
    rcases h with h | ⟨x, hx, hxl⟩
    · exact h (beq_iff_eq.mp h1)
    · rw [List.all_eq_true] at h2
      exact hxl (beq_iff_eq.mp (h2 x hx))
  have he : s.update space xs ys = Except.error LoopError.shapeMismatch := by
    simp [LoopState.update, hc]
  exact ⟨he, fun s' hok => by rw [he] at hok; exact Except.noConfusion hok⟩

/-- Claim C8 witness: submitting a two-dimensional input against the
one-parameter notebook space is rejected with a shape mismatch. -/
theorem update_shape_mismatch_witness :
    LoopState.update fixSpace ⟨[], []⟩ [[mkRat 0 1, mkRat 0 1]] [mkRat 0 1] =
      Except.error LoopError.shapeMismatch :=
  (update_shape_mismatch fixSpace ⟨[], []⟩ [[mkRat 0 1, mkRat 0 1]] [mkRat 0 1]
    (by decide)).1

/-- Claim C9: the acquisition optimizer never fails a round: for every
acquisition function — including a flat landscape with no clear optimum — on
a feasible space it still returns a single valid in-space point rather than
an error. -/
theorem optimizer_always_returns (g : ℕ) (m : SurrogateModel)
    (space : ParameterSpace) (s : LoopState) (hfeas : ∀ p ∈ space, p.feasible) :
    ∀ acq : AcquisitionFunction,
      ∃ pt, proposeBatch g m acq space s = [pt] ∧ validPoint space pt = true :=
  fun acq => proposeBatch_spec g m acq space s hfeas

/-- Claim C9 witness: under the constant-predictor model the acquisition
landscape is flat, yet the optimizer still returns the first valid
candidate. -/
theorem optimizer_always_returns_witness :
    proposeBatch 0 fixModel fixAcq fixSpaceD ⟨[], []⟩ = [[mkRat 0 1]] ∧
      validPoint fixSpaceD [mkRat 0 1] = true := by
  obtain ⟨pt, hpt, hv⟩ :=
    optimizer_always_returns 0 fixModel fixSpaceD ⟨[], []⟩ fixSpaceD_feasible fixAcq
  have he : proposeBatch 0 fixModel fixAcq fixSpaceD ⟨[], []⟩ = [[mkRat 0 1]] := by
    decide
  rw [he] at hpt
  have h1 : [mkRat 0 1] = pt := by injection hpt
  rw [← h1] at hv
  exact ⟨he, hv⟩

/-- Claim C10: reconstruction is an identity round-trip: constructing a new
loop from the `snapshot` of an existing loop and immediately taking
`snapshot` of the new loop yields (inputs, outputs) identical to the
original's. -/
theorem reconstruction_roundtrip (l : Loop) :
    (mkLoop (l.state.snapshot).1 (l.state.snapshot).2).state.snapshot =
      l.state.snapshot := rfl
